import Mathlib

/-!
Shallow embedding of the bootlogger capture/filter/merge pipeline
(`src/debug-tools/bootlogger/AuditToAllow.cpp`, `Logger.cpp`,
`LoggerInternal.h`) together with proofs about the audit-record parser,
the record merge engine, the policy renderers and the filters.

Conventions of the embedding:
* C++ strings are Lean `String`s; all character-level work is done on
  `String.data : List Char` (the inputs of interest are ASCII, so byte
  positions and character positions coincide).
* `std::set<std::string>` is modelled as a strictly sorted `List String`
  (`setInsert` is `std::set::insert`); the list order is the `std::set`
  iteration order.  This is used both for the filter accumulation sets
  and for the operation set of a record.
* `std::map<std::string, std::string>` is an association list with unique
  keys (`AttrMap`); `emplace` does not overwrite an existing key.
* Code paths that throw an exception or run into iterator undefined
  behaviour (dereferencing or incrementing past `end()`) are modelled by
  the `crash` outcome.
-/

namespace Bootlogger

/-- The whitespace characters of `std::isspace` in the "C" locale
(space, \t, \n, \v, \f, \r); this is what `operator>>(istream, string)`
skips between tokens. -/
def isCSpace (c : Char) : Bool :=
  c = ' ' || c = '\t' || c = '\n' || c = Char.ofNat 11 || c = Char.ofNat 12 || c = '\r'

/-- Split a character list into maximal whitespace-free tokens, i.e. the
sequence of strings produced by repeated `iss >> line` extraction. -/
def wordsAux : List Char → List Char → List String
  | [], acc => if acc = [] then [] else [acc.reverse.asString]
  | c :: cs, acc =>
    if isCSpace c then
      if acc = [] then wordsAux cs [] else acc.reverse.asString :: wordsAux cs []
    else wordsAux cs (c :: acc)

/-- Tokenize a string on whitespace, as `std::istringstream` extraction does. -/
def tokenize (s : String) : List String :=
  wordsAux s.data []

/-- Index of the first occurrence of `pat` in `cs`, as `std::string_view::find`
computes it (`none` plays the role of `npos`). -/
def firstIdx (cs pat : List Char) : Option Nat :=
  match cs with
  | [] => if pat = [] then some 0 else none
  | _ :: cs2 =>
    if pat.isPrefixOf cs then some 0
    else (firstIdx cs2 pat).map (· + 1)

/-- `string.find(pat)` on the character level. -/
def substrIndex (s pat : String) : Option Nat :=
  firstIdx s.data pat.data

/-- Concatenate a list of strings with a separator (`fmt::join(_, sep)`). -/
def joinSep (sep : String) : List String → String
  | [] => ""
  | [x] => x
  | x :: xs => x ++ sep ++ joinSep sep xs

/-- Lexicographic comparison of character lists, i.e.
`std::string::operator<` on the character level. -/
def strLtCh : List Char → List Char → Bool
  | _, [] => false
  | [], _ :: _ => true
  | a :: as, b :: bs =>
    if a < b then true
    else if b < a then false
    else strLtCh as bs

/-- `std::string::operator<`, the ordering of `std::set<std::string>`. -/
def strLt (a b : String) : Bool :=
  strLtCh a.data b.data

/-- `std::set<std::string>::insert`: keep the list strictly sorted, do
nothing when the element is already present. -/
def setInsert (s : List String) (x : String) : List String :=
  match s with
  | [] => [x]
  | y :: ys =>
    if strLt x y then x :: y :: ys
    else if x = y then y :: ys
    else y :: setInsert ys x

/-- `set.insert(other.begin(), other.end())`: insert every element of the
second set into the first. -/
def setUnion (s t : List String) : List String :=
  t.foldl setInsert s

/-- `[\w-]` of the ECMAScript regex in `SEContext::SEContext`
(word characters are ASCII letters, digits and underscore). -/
def isWordDash (c : Char) : Bool :=
  c.isAlphanum || c = '_' || c = '-'

/-- ECMAScript line terminators, the characters `.` does not match. -/
def isLineTerm (c : Char) : Bool :=
  c = '\n' || c = '\r' || c = Char.ofNat 8232 || c = Char.ofNat 8233

/-- Matcher for `kSEContextRegex`, `^u:(object_)?r:([\w-]+):s0(.+)?$`,
returning capture group 2 (the type token) on a match.

The optional group is deterministic: when the input continues with
`object_` the regex must take it (otherwise the following literal `r:`
cannot match the leading `o`), so no backtracking is needed. -/
def seMatchType (cs : List Char) : Option (List Char) :=
  if ('u' :: ':' :: []).isPrefixOf cs then
    let r1 := cs.drop 2
    let r2 := if ("object_".data).isPrefixOf r1 then r1.drop 7 else r1
    if ('r' :: ':' :: []).isPrefixOf r2 then
      let r3 := r2.drop 2
      let t := r3.takeWhile isWordDash
      let r4 := r3.drop t.length
      if t = [] then none
      else if (':' :: 's' :: '0' :: []).isPrefixOf r4 && (r4.drop 3).all (fun c => !isLineTerm c)
      then some t
      else none
    else none
  else none

/-- `SEContext` wraps the (possibly normalized) context string. -/
structure SEContext where
  m_context : String
deriving DecidableEq

instance : Inhabited SEContext := ⟨⟨""⟩⟩

/-- `SEContext::SEContext`: replace the stored string by the type token
when the context regex matches, otherwise keep it unchanged. -/
def SEContext.ofString (context : String) : SEContext :=
  match seMatchType context.data with
  | some t => ⟨t.asString⟩
  | none => ⟨context⟩

/-- `std::map<std::string, std::string>` as an association list with
unique keys. -/
abbrev AttrMap := List (String × String)

/-- `std::map::emplace`: insert only when the key is not present yet. -/
def AttrMap.emplace (m : AttrMap) (k v : String) : AttrMap :=
  if (List.lookup k m).isSome then m else m ++ [(k, v)]

/-- Erase every pair with the given key (`std::map` keys are unique, so
this is `std::map::erase(iterator)` whenever the key is present). -/
def AttrMap.eraseKey (k : String) (m : AttrMap) : AttrMap :=
  m.filter (fun p => p.1 ≠ k)

/-- `AvcContext::findOrDie` on the map level: look the key up and, when
present, remove it (the returned `Option` is the looked-up value). -/
def AttrMap.findErase (k : String) (m : AttrMap) : Option String × AttrMap :=
  match List.lookup k m with
  | some v => (some v, AttrMap.eraseKey k m)
  | none => (none, m)

/-- `AvcContext` (LoggerInternal.h).  Default-constructed fields model the
C++ member defaults (`stale = true`; an indeterminate `bool` is modelled
as `false`, it is never observed while `stale` holds). -/
structure AvcContext where
  granted : Bool := false
  operation : List String := []
  scontext : SEContext := ⟨""⟩
  tcontext : SEContext := ⟨""⟩
  tclass : String := ""
  misc_attributes : AttrMap := []
  permissive : Bool := false
  stale : Bool := true
deriving DecidableEq

instance : Inhabited AvcContext := ⟨{}⟩

/-- `TrimDoubleQuote` (AuditToAllow.cpp): strip one matching pair of
double quotes from a string of size at least 3. -/
def trimDoubleQuote (str : String) : String :=
  if 2 < str.data.length then
    if str.data.head? = some '"' && str.data.getLast? = some '"' then
      ((str.data.drop 1).dropLast).asString
    else str
  else str

/-- `std::stringstream(s) >> x` for `int x`: skip leading whitespace,
take an optional sign and a non-empty maximal digit run (extraction fails
without any digit, and on overflow of `int`); everything after the digit
run is left unread. -/
def streamExtractInt (s : String) : Option Int :=
  let cs := s.data.dropWhile isCSpace
  let neg : Bool := cs.head? = some '-'
  let rest := if cs.head? = some '-' ∨ cs.head? = some '+' then cs.drop 1 else cs
  let digits := rest.takeWhile Char.isDigit
  if digits = [] then none
  else
    let v : Nat := digits.foldl (fun a c => a * 10 + (c.toNat - ('0').toNat)) 0
    if neg then
      if 2147483648 < v then none else some (-(v : Int))
    else
      if 2147483647 < v then none else some (v : Int)

/-- Lines 90-104 of AuditToAllow.cpp: the `permissive` value is accepted
exactly when integer stream extraction succeeds and yields `0` or `1`;
the resulting `bool` is that integer. -/
def permissiveCheck (v : String) : Option Bool :=
  match streamExtractInt v with
  | none => none
  | some x => if x = 0 || x = 1 then some (x = 1) else none

/-- The operation-set loop of `AvcContext::AvcContext`:
`do { operation.insert(*it); } while (*(++it) != "}");`, phrased on the
token suffix starting at the iterator.  On success it returns the
accumulated set together with the tokens following the closing brace;
`none` models the undefined behaviour of dereferencing (or advancing)
the past-the-end iterator when no `"}"` token remains. -/
def scanOps (ts : List String) (acc : List String) :
    Option (List String × List String) :=
  match ts with
  | [] => none
  | t0 :: rest =>
    let acc2 := setInsert acc t0
    match rest with
    | [] => none
    | t1 :: rest2 =>
      if t1 = "\x7d" then some (acc2, rest2)
      else scanOps rest acc2

/-- The `key=value` loop of `AvcContext::AvcContext`: split each token on
its first `=` (tokens without `=` are skipped with a warning), trim
quotes from the value and `emplace` the pair. -/
def buildMisc (tokens : List String) : AttrMap :=
  tokens.foldl
    (fun m tok =>
      match firstIdx tok.data ['='] with
      | none => m
      | some idx =>
        AttrMap.emplace m ((tok.data.take idx).asString)
          (trimDoubleQuote ((tok.data.drop (idx + 1)).asString)))
    []

/-- Result of running the `AvcContext` constructor: either the process
crashed (an uncaught exception or iterator UB) or a record was produced
(`stale = true` marks a failed parse). -/
inductive ParseOutcome where
  | crash
  | ok (ctx : AvcContext)
deriving DecidableEq

/-- The stage of `AvcContext::AvcContext` reached before the required
attribute extraction: a crash, an early return with a stale record, or
the granted flag, operation set and raw attribute map. -/
inductive AvcStage where
  | crash
  | early (ctx : AvcContext)
  | attrs (g : Bool) (ops : List String) (m0 : AttrMap)
deriving DecidableEq

/-- `AvcContext::AvcContext` up to and including the `key=value` loop.
Crashes modelled: `string_view::substr(npos)` throws `std::out_of_range`
when `avc:` is absent; dereferencing (or advancing twice past) the end of
the token vector is UB when the token stream ends prematurely. -/
def avcParseCore (string : String) : AvcStage :=
  match substrIndex string "avc:" with
  | none => .crash
  | some i =>
    match tokenize ((string.data.drop i).asString) with
    | [] => .crash
    | [_] => .crash
    | _ :: t1 :: xs =>
      let gOpt : Option Bool :=
        if t1 = "granted" then some true
        else if t1 = "denied" then some false
        else none
      match gOpt with
      | none => .early {}
      | some g =>
        match scanOps (xs.drop 1) [] with
        | none => .crash
        | some (ops, after) =>
          match after with
          | [] => .crash
          | [_] => .early { granted := g, operation := ops }
          | _ :: a2 => .attrs g ops (buildMisc a2)

/-- Required-field extraction and validation (lines 83-109 of
AuditToAllow.cpp).  Fields found by `findOrDie` are assigned (and erased
from the map) even when a later requirement fails; `permissive` is erased
from the map only on the fully valid path. -/
def finishParse (g : Bool) (ops : List String) (m0 : AttrMap) : AvcContext :=
  let p1 := AttrMap.findErase "scontext" m0
  let p2 := AttrMap.findErase "tcontext" p1.2
  let p3 := AttrMap.findErase "tclass" p2.2
  let sc := (p1.1.map SEContext.ofString).getD ⟨""⟩
  let tc := (p2.1.map SEContext.ofString).getD ⟨""⟩
  let cl := p3.1.getD ""
  match p1.1, p2.1, p3.1, List.lookup "permissive" p3.2 with
  | some _, some _, some _, some pv =>
    match permissiveCheck pv with
    | some b =>
      { granted := g, operation := ops, scontext := sc, tcontext := tc,
        tclass := cl, misc_attributes := AttrMap.eraseKey "permissive" p3.2,
        permissive := b, stale := false }
    | none =>
      { granted := g, operation := ops, scontext := sc, tcontext := tc,
        tclass := cl, misc_attributes := p3.2 }
  | _, _, _, _ =>
    { granted := g, operation := ops, scontext := sc, tcontext := tc,
      tclass := cl, misc_attributes := p3.2 }

/-- The full `AvcContext::AvcContext` constructor. -/
def avcContextParse (string : String) : ParseOutcome :=
  match avcParseCore string with
  | .crash => .crash
  | .early c => .ok c
  | .attrs g ops m0 => .ok (finishParse g ops m0)

/-- Projection: the `stale` flag of the parsed record. -/
def avcParseStale (s : String) : Option Bool :=
  match avcContextParse s with
  | .crash => none
  | .ok r => some r.stale

/-- Projection: the final `misc_attributes` map of the parsed record. -/
def avcParseMisc (s : String) : Option AttrMap :=
  match avcContextParse s with
  | .crash => none
  | .ok r => some r.misc_attributes

/-- Projection: the raw value of the `permissive` attribute as seen by
the validation step (the lookup in the map left by the three `findOrDie`
calls). -/
def avcPermValue (s : String) : Option String :=
  match avcParseCore s with
  | .attrs _ _ m0 =>
    let p1 := AttrMap.findErase "scontext" m0
    let p2 := AttrMap.findErase "tcontext" p1.2
    let p3 := AttrMap.findErase "tclass" p2.2
    List.lookup "permissive" p3.2
  | _ => none

/-- `AvcContext::operator+=` (AuditToAllow.cpp lines 134-148): when both
records are fresh and agree on `granted`, `scontext`, `tcontext` and
`tclass`, absorb the other record's operations and mark it stale.
Returns the updated pair `(e1, e2)`. -/
def AvcContext.mergeInto (e1 e2 : AvcContext) : AvcContext × AvcContext :=
  if e1.stale = false ∧ e2.stale = false ∧ e1.granted = e2.granted ∧
     e1.scontext = e2.scontext ∧ e1.tcontext = e2.tcontext ∧ e1.tclass = e2.tclass then
    ({ e1 with operation := setUnion e1.operation e2.operation },
     { e2 with stale := true })
  else (e1, e2)

/-- One step of the nested merge loop of `FilterAvcGen::write`: apply
`contexts[i] += contexts[j]`, skipping the self pair (`&e1 == &e2`). -/
def mergeAt (rs : List AvcContext) (i j : Nat) : List AvcContext :=
  if i = j then rs
  else
    match rs.get? i, rs.get? j with
    | some a, some b =>
      let p := AvcContext.mergeInto a b
      (rs.set i p.1).set j p.2
    | some _, none => rs
    | none, _ => rs

/-- All ordered index pairs `(i, j)` with `i, j < n`, in the order the
nested range-for loops of `FilterAvcGen::write` visit them. -/
def pairList (n : Nat) : List (Nat × Nat) :=
  (List.range n).flatMap (fun i => (List.range n).map (fun j => (i, j)))

/-- The full merge pass of `FilterAvcGen::write`: fold `mergeAt` over all
ordered pairs. -/
def mergePass (rs : List AvcContext) : List AvcContext :=
  (pairList rs.length).foldl (fun s p => mergeAt s p.1 p.2) rs

/-- The comparison key of `operator+=`: records merge iff these agree. -/
def AvcContext.mergeKey (r : AvcContext) : Bool × SEContext × SEContext × String :=
  (r.granted, r.scontext, r.tcontext, r.tclass)

/-- Mark a record consumed, as `operator+=` does to its argument. -/
def markConsumed (r : AvcContext) : AvcContext :=
  { r with stale := true }

/-- Union of the operation sets of a record collection. -/
def opsUnion (rs : List AvcContext) : List String :=
  rs.foldl (fun acc r => setUnion acc r.operation) []

/-- The record body shared by `fmt::formatter<AvcContext>` and
`operator<<(ostream, const AvcContext&)`: `allow <src> <tgt>:<class>`
followed by the single operation, or by the brace-wrapped operations in
`std::set` (sorted) iteration order.  Both renderers produce this exact
string for a given source, target, class and operation set (the list is
the `std::set` in its iteration order). -/
def renderParts (sc tc : SEContext) (cl : String) (ops : List String) : String :=
  let pfx := "allow " ++ sc.m_context ++ " " ++ tc.m_context ++ ":" ++ cl
  match ops with
  | [op] => pfx ++ " " ++ op ++ ";"
  | l => pfx ++ " \x7b " ++ joinSep " " l ++ " \x7d;"

/-- `fmt::formatter<AvcContext>::format` (LoggerInternal.h lines 91-109). -/
def AvcContext.renderFmt (r : AvcContext) : String :=
  renderParts r.scontext r.tcontext r.tclass r.operation

/-- `fmt::formatter<AvcContexts>::format` (LoggerInternal.h lines
111-124): drop stale and operation-less records, render the remainder in
collection order joined by newlines.  This, not the `operator<<`
overloads of AuditToAllow.cpp, is what `FilterAvcGen::write` invokes via
`fmt::format("{}\n", contexts)`. -/
def avcContextsFormat (rs : List AvcContext) : String :=
  joinSep "\n"
    ((rs.filter (fun r => !(r.stale || r.operation.length == 0))).map AvcContext.renderFmt)

/-- `operator<<(ostream, const AvcContext&)` (AuditToAllow.cpp lines
150-171): like the `fmt` formatter but emitting nothing for stale or
empty records and — the hardcoded hook — for records whose operation set
contains `sys_admin`.  Dead code on the `FilterAvcGen::write` path. -/
def AvcContext.renderOstream (r : AvcContext) : String :=
  if r.stale || r.operation.length == 0 then ""
  else if "sys_admin" ∈ r.operation then ""
  else renderParts r.scontext r.tcontext r.tclass r.operation

/-- `operator<<(ostream, const AvcContexts&)` (AuditToAllow.cpp lines
173-186): collect `rendered ++ "\n"` for every record into a string set
and emit the set in sorted order.  Dead code on the
`FilterAvcGen::write` path. -/
def avcContextsOstream (rs : List AvcContext) : String :=
  joinSep ""
    (rs.foldl (fun rules r => setInsert rules (r.renderOstream ++ "\n")) [])

/-- `FilterAvcGen::filter` (Logger.cpp lines 181-184): construct an
`AvcContext` from the line and report whether it parsed; `none` when the
constructor crashes the process. -/
def FilterAvcGen.filterLine (line : String) : Option Bool :=
  match avcContextParse line with
  | .crash => none
  | .ok ctx => some (!ctx.stale)

/-- `FilterAvcGen::write` (Logger.cpp lines 185-215) given the
accumulated line set in its iteration order: parse every line, run the
merge pass, and render with `fmt::format("{}\n", contexts)`; `none` when
any constructor crashes the process. -/
def FilterAvcGen.writeRender (results : List String) : Option String :=
  match results.mapM (fun l =>
      match avcContextParse l with
      | .crash => none
      | .ok c => some c) with
  | none => none
  | some contexts => some (avcContextsFormat (mergePass contexts) ++ "\n")

/-- One iteration of the filter loop of `start` (Logger.cpp lines
284-297) for the record-generator filter: if the match predicate holds,
insert the line into the filter's `std::set<std::string>`; `none` (the
crashed process) is absorbing. -/
def FilterAvcGen.accumStep (acc : Option (List String)) (l : String) :
    Option (List String) :=
  match acc with
  | none => none
  | some s =>
    match FilterAvcGen.filterLine l with
    | none => none
    | some true => some (setInsert s l)
    | some false => some s

/-- The record-generator filter's accumulated set after processing a
sequence of lines; `none` when any parse crashes the process. -/
def FilterAvcGen.accumulate (lines : List String) : Option (List String) :=
  lines.foldl FilterAvcGen.accumStep (some [])

/-- What the spec asserts about the record-generator's accumulation: the
matching lines kept in arrival order, duplicates preserved.  (Spec-side
definition, used only to compare against `FilterAvcGen.accumulate`.) -/
def specArrivalOrderMatches (lines : List String) : List String :=
  lines.filter (fun l => FilterAvcGen.filterLine l = some true)

/-- Outcome of `std::regex_search(line, kPropMatch, kPropertyAccessRegEX)`
in `FilterLibc::filter`: whether the search matched, whether the optional
destination groups (2 and 3) participated, and capture group 1 (the
quoted property name). -/
structure PropLineMatch where
  matched : Bool
  hasDestination : Bool
  propName : String
deriving DecidableEq

/-- `std::smatch::size()`: one more than the number of marked
subexpressions on a successful match — `kPropertyAccessRegEX` has three
capture groups, so this is always 4 — and 0 otherwise. -/
def smatchSize (m : PropLineMatch) : Nat :=
  if m.matched then 4 else 0

/-- `FilterLibc::filter` (Logger.cpp lines 221-247) as a function of the
regex result and the process-wide `propsDenied` set: returns the match
verdict and the updated set. -/
def FilterLibc.filterStep (m : PropLineMatch) (propsDenied : List String) :
    Bool × List String :=
  if m.matched then
    if smatchSize m = 3 then (true, propsDenied)
    else if smatchSize m = 1 then
      if m.propName ∈ propsDenied then (false, propsDenied)
      else (true, setInsert propsDenied m.propName)
    else (false, propsDenied)
  else (false, propsDenied)

/-! ## Helper lemmas -/

theorem strLtCh_irrefl (l : List Char) : strLtCh l l = false := by
  induction l with
  | nil => rfl
  | cons a as ih => simp [strLtCh, lt_irrefl, ih]

theorem strLtCh_trans {a b c : List Char} (hab : strLtCh a b = true)
    (hbc : strLtCh b c = true) : strLtCh a c = true := by
  induction a generalizing b c with
  | nil =>
    cases c with
    | nil => cases b <;> simp [strLtCh] at hbc
    | cons z zs => simp [strLtCh]
  | cons x xs ih =>
    cases b with
    | nil => simp [strLtCh] at hab
    | cons y ys =>
      cases c with
      | nil => simp [strLtCh] at hbc
      | cons z zs =>
        simp only [strLtCh] at hab hbc ⊢
        rcases lt_trichotomy x y with hxy | rfl | hxy
        · rcases lt_trichotomy y z with hyz | rfl | hyz
          · simp [lt_trans hxy hyz]
          · simp [hxy]
          · simp [hyz, lt_asymm hyz] at hbc
        · rcases lt_trichotomy x z with hxz | rfl | hxz
          · simp [hxz]
          · simp only [if_neg (lt_irrefl x)] at hab hbc ⊢
            exact ih hab hbc
          · simp [hxz, lt_asymm hxz] at hbc
        · simp [hxy, lt_asymm hxy] at hab

theorem strLtCh_asymm {a b : List Char} (h : strLtCh a b = true) :
    strLtCh b a = false := by
  induction a generalizing b with
  | nil =>
    cases b with
    | nil => simp [strLtCh] at h
    | cons y ys => simp [strLtCh]
  | cons x xs ih =>
    cases b with
    | nil => simp [strLtCh] at h
    | cons y ys =>
      simp only [strLtCh] at h ⊢
      rcases lt_trichotomy x y with hxy | rfl | hxy
      · simp [hxy, lt_asymm hxy]
      · simp only [if_neg (lt_irrefl x)] at h ⊢
        exact ih h
      · simp [hxy, lt_asymm hxy] at h

theorem strLtCh_eq_of_not {a b : List Char} (h1 : strLtCh a b = false)
    (h2 : strLtCh b a = false) : a = b := by
  induction a generalizing b with
  | nil =>
    cases b with
    | nil => rfl
    | cons y ys => simp [strLtCh] at h1
  | cons x xs ih =>
    cases b with
    | nil => simp [strLtCh] at h2
    | cons y ys =>
      simp only [strLtCh] at h1 h2
      rcases lt_trichotomy x y with hxy | rfl | hxy
      · simp [hxy] at h1
      · simp only [if_neg (lt_irrefl x)] at h1 h2
        rw [ih h1 h2]
      · simp [hxy, lt_asymm hxy] at h2

theorem strLt_trans {a b c : String} (hab : strLt a b = true)
    (hbc : strLt b c = true) : strLt a c = true :=
  strLtCh_trans hab hbc

theorem strLt_asymm {a b : String} (h : strLt a b = true) : strLt b a = false :=
  strLtCh_asymm h

theorem strLt_irrefl (a : String) : strLt a a = false :=
  strLtCh_irrefl a.data

theorem strLt_eq_of_not {a b : String} (h1 : strLt a b = false)
    (h2 : strLt b a = false) : a = b := by
  have h := strLtCh_eq_of_not h1 h2
  cases a
  cases b
  exact congrArg String.mk h

theorem strLt_ne {a b : String} (h : strLt a b = true) : a ≠ b := by
  intro he
  subst he
  rw [strLt_irrefl] at h
  cases h

theorem strLt_total_ne {a b : String} (h1 : strLt a b = false) (h2 : a ≠ b) :
    strLt b a = true := by
  cases hba : strLt b a with
  | true => rfl
  | false => exact absurd (strLt_eq_of_not h1 hba) h2

theorem seMatchType_mem_wordDash {cs t : List Char}
    (h : seMatchType cs = some t) : ∀ c ∈ t, isWordDash c = true := by
  simp only [seMatchType] at h
  split_ifs at h
  all_goals cases h
  all_goals exact fun c hc => List.mem_takeWhile_imp hc

theorem seMatchType_wordDash_none {t : List Char}
    (h : ∀ c ∈ t, isWordDash c = true) : seMatchType t = none := by
  have hp : ¬ (('u' :: ':' :: []).isPrefixOf t = true) := by
    intro hpre
    rcases List.isPrefixOf_iff_prefix.mp hpre with ⟨r, hr⟩
    have hmem : ':' ∈ t := by
      rw [← hr]; simp
    have hw := h ':' hmem
    exact absurd hw (by decide)
  simp only [seMatchType]
  rw [if_neg hp]

theorem lookup_eraseKey_self (k : String) (m : AttrMap) :
    List.lookup k (AttrMap.eraseKey k m) = none := by
  induction m with
  | nil => rfl
  | cons p m' ih =>
    by_cases hp : p.1 = k
    · simpa [AttrMap.eraseKey, hp] using ih
    · simpa [AttrMap.eraseKey, hp, List.lookup, beq_eq_false_iff_ne.mpr (Ne.symm hp)] using ih

theorem lookup_eraseKey_ne {k k2 : String} (hk : k ≠ k2) (m : AttrMap) :
    List.lookup k (AttrMap.eraseKey k2 m) = List.lookup k m := by
  induction m with
  | nil => rfl
  | cons p m' ih =>
    rcases p with ⟨a, b⟩
    by_cases ha : a = k2
    · subst ha
      have hka : (k == a) = false := beq_eq_false_iff_ne.mpr hk
      simp only [AttrMap.eraseKey, List.filter_cons, decide_not] at ih ⊢
      simp [List.lookup, hka, ih, decide_not]
    · simp only [AttrMap.eraseKey, List.filter_cons, decide_not] at ih ⊢
      cases hka : k == a with
      | true => simp [List.lookup, hka, ha]
      | false => simp [List.lookup, hka, ha, ih]

theorem lookup_findEraseSnd_self (k : String) (m : AttrMap) :
    List.lookup k (AttrMap.findErase k m).2 = none := by
  unfold AttrMap.findErase
  cases h : List.lookup k m with
  | none => simpa using h
  | some v => simpa using lookup_eraseKey_self k m

theorem lookup_findEraseSnd_ne {k k2 : String} (hk : k ≠ k2) (m : AttrMap) :
    List.lookup k (AttrMap.findErase k2 m).2 = List.lookup k m := by
  unfold AttrMap.findErase
  cases h : List.lookup k2 m with
  | none => rfl
  | some v => simpa using lookup_eraseKey_ne hk m

theorem setInsert_mem (s : List String) (x y : String) :
    y ∈ setInsert s x ↔ y = x ∨ y ∈ s := by
  induction s with
  | nil => simp [setInsert]
  | cons z zs ih =>
    unfold setInsert
    split_ifs with h1 h2
    · constructor
      · intro h
        rcases List.mem_cons.mp h with rfl | h
        · exact Or.inl rfl
        · exact Or.inr h
      · intro h
        rcases h with rfl | h
        · exact List.mem_cons_self _ _
        · exact List.mem_cons_of_mem _ h
    · subst h2
      constructor
      · exact Or.inr
      · intro h
        rcases h with rfl | h
        · exact List.mem_cons_self _ _
        · exact h
    · constructor
      · intro h
        rcases List.mem_cons.mp h with rfl | h
        · exact Or.inr (List.mem_cons_self _ _)
        · rcases ih.mp h with rfl | h
          · exact Or.inl rfl
          · exact Or.inr (List.mem_cons_of_mem _ h)
      · intro h
        rcases h with rfl | h
        · exact List.mem_cons_of_mem _ (ih.mpr (Or.inl rfl))
        · rcases List.mem_cons.mp h with rfl | h
          · exact List.mem_cons_self _ _
          · exact List.mem_cons_of_mem _ (ih.mpr (Or.inr h))

theorem setInsert_sorted {s : List String}
    (hs : List.Pairwise (fun a b => strLt a b = true) s) (x : String) :
    List.Pairwise (fun a b => strLt a b = true) (setInsert s x) := by
  induction s with
  | nil => simp [setInsert]
  | cons z zs ih =>
    rw [List.pairwise_cons] at hs
    obtain ⟨hz, hzs⟩ := hs
    unfold setInsert
    split_ifs with h1 h2
    · refine List.pairwise_cons.mpr ⟨?_, List.pairwise_cons.mpr ⟨hz, hzs⟩⟩
      intro b hb
      rcases List.mem_cons.mp hb with rfl | hbzs
      · exact h1
      · exact strLt_trans h1 (hz _ hbzs)
    · exact List.pairwise_cons.mpr ⟨hz, hzs⟩
    · have hzx : strLt z x = true :=
        strLt_total_ne (Bool.not_eq_true _ ▸ eq_false_of_ne_true h1) h2
      refine List.pairwise_cons.mpr ⟨?_, ih hzs⟩
      intro b hb
      rcases (setInsert_mem zs x b).mp hb with rfl | hbzs
      · exact hzx
      · exact hz _ hbzs

theorem sorted_mem_ext {s t : List String}
    (hs : List.Pairwise (fun a b => strLt a b = true) s)
    (ht : List.Pairwise (fun a b => strLt a b = true) t)
    (h : ∀ x, x ∈ s ↔ x ∈ t) : s = t := by
  haveI : IsAntisymm String (fun a b => strLt a b = true) :=
    ⟨fun a b h1 h2 => absurd h2 (by rw [strLt_asymm h1]; exact Bool.false_ne_true)⟩
  apply List.eq_of_perm_of_sorted ?_ hs ht
  have hns : s.Nodup := hs.imp (fun hab => strLt_ne hab)
  have hnt : t.Nodup := ht.imp (fun hab => strLt_ne hab)
  exact (List.perm_ext_iff_of_nodup hns hnt).mpr h

theorem setUnion_mem (s t : List String) (x : String) :
    x ∈ setUnion s t ↔ x ∈ s ∨ x ∈ t := by
  induction t generalizing s with
  | nil => simp [setUnion]
  | cons y ys ih =>
    show x ∈ setUnion (setInsert s y) ys ↔ _
    rw [ih, setInsert_mem]
    simp [List.mem_cons]
    tauto

theorem setUnion_sorted {s : List String}
    (hs : List.Pairwise (fun a b => strLt a b = true) s)
    (t : List String) : List.Pairwise (fun a b => strLt a b = true) (setUnion s t) := by
  induction t generalizing s with
  | nil => exact hs
  | cons y ys ih => exact ih (setInsert_sorted hs y)

theorem avcParseCore_early {line : String} {c : AvcContext}
    (h : avcParseCore line = .early c) :
    c.misc_attributes = [] ∧ c.stale = true := by
  simp only [avcParseCore] at h
  repeat' split at h
  all_goals cases h
  all_goals exact ⟨rfl, rfl⟩

theorem lookup3_scontext (m0 : AttrMap) :
    List.lookup "scontext"
      (AttrMap.findErase "tclass"
        (AttrMap.findErase "tcontext" (AttrMap.findErase "scontext" m0).2).2).2 = none := by
  rw [lookup_findEraseSnd_ne (by decide), lookup_findEraseSnd_ne (by decide),
    lookup_findEraseSnd_self]

theorem lookup3_tcontext (m0 : AttrMap) :
    List.lookup "tcontext"
      (AttrMap.findErase "tclass"
        (AttrMap.findErase "tcontext" (AttrMap.findErase "scontext" m0).2).2).2 = none := by
  rw [lookup_findEraseSnd_ne (by decide), lookup_findEraseSnd_self]

theorem lookup3_tclass (m0 : AttrMap) :
    List.lookup "tclass"
      (AttrMap.findErase "tclass"
        (AttrMap.findErase "tcontext" (AttrMap.findErase "scontext" m0).2).2).2 = none := by
  rw [lookup_findEraseSnd_self]

theorem finishParse_misc_clean (g : Bool) (ops : List String) (m0 : AttrMap) :
    (List.lookup "scontext" (finishParse g ops m0).misc_attributes = none ∧
     List.lookup "tcontext" (finishParse g ops m0).misc_attributes = none ∧
     List.lookup "tclass" (finishParse g ops m0).misc_attributes = none) ∧
    ((finishParse g ops m0).stale = false →
      List.lookup "permissive" (finishParse g ops m0).misc_attributes = none) := by
  simp only [finishParse]
  split
  · split
    · refine ⟨⟨?_, ?_, ?_⟩, fun _ => ?_⟩
      · rw [show (AvcContext.misc_attributes _) =
          AttrMap.eraseKey "permissive" _ from rfl,
          lookup_eraseKey_ne (by decide), lookup3_scontext]
      · rw [show (AvcContext.misc_attributes _) =
          AttrMap.eraseKey "permissive" _ from rfl,
          lookup_eraseKey_ne (by decide), lookup3_tcontext]
      · rw [show (AvcContext.misc_attributes _) =
          AttrMap.eraseKey "permissive" _ from rfl,
          lookup_eraseKey_ne (by decide), lookup3_tclass]
      · exact lookup_eraseKey_self _ _
    · exact ⟨⟨lookup3_scontext m0, lookup3_tcontext m0, lookup3_tclass m0⟩,
        fun hf => by cases hf⟩
  · exact ⟨⟨lookup3_scontext m0, lookup3_tcontext m0, lookup3_tclass m0⟩,
      fun hf => by cases hf⟩

theorem permissiveCheck_eq_some {v : String} {b : Bool}
    (h : permissiveCheck v = some b) :
    ∃ x, streamExtractInt v = some x ∧ (x = 0 ∨ x = 1) := by
  unfold permissiveCheck at h
  cases he : streamExtractInt v with
  | none => rw [he] at h; cases h
  | some x =>
    rw [he] at h
    by_cases hx : x = 0 ∨ x = 1
    · exact ⟨x, rfl, hx⟩
    · obtain ⟨hx1, hx2⟩ := not_or.mp hx
      simp [hx1, hx2] at h

theorem finishParse_stale_false {g : Bool} {ops : List String} {m0 : AttrMap}
    (h : (finishParse g ops m0).stale = false) :
    ∃ v b, List.lookup "permissive"
        (AttrMap.findErase "tclass"
          (AttrMap.findErase "tcontext" (AttrMap.findErase "scontext" m0).2).2).2 = some v ∧
      permissiveCheck v = some b := by
  simp only [finishParse] at h
  split at h
  · next v heq1 heq2 heq3 heq4 =>
    split at h
    · next b heqc => exact ⟨v, b, heq4, heqc⟩
    · cases h
  · cases h

theorem finishParse_permFail {g : Bool} {ops : List String} {m0 : AttrMap} {v : String}
    (hv : List.lookup "permissive"
        (AttrMap.findErase "tclass"
          (AttrMap.findErase "tcontext" (AttrMap.findErase "scontext" m0).2).2).2 = some v)
    (hc : permissiveCheck v = none) :
    (finishParse g ops m0).stale = true := by
  simp only [finishParse]
  split
  · next pv heq1 heq2 heq3 heq4 =>
    split
    · next b heqc =>
      rw [hv] at heq4
      cases heq4
      rw [hc] at heqc
      cases heqc
    · rfl
  · rfl

theorem foldl_accumStep_none (ls : List String) :
    ls.foldl FilterAvcGen.accumStep none = none := by
  induction ls with
  | nil => rfl
  | cons l ls ih => simpa [FilterAvcGen.accumStep] using ih

theorem accumulate_invariant :
    ∀ (lines : List String) (s0 : List String),
      List.Pairwise (fun a b => strLt a b = true) s0 →
      ∀ s, lines.foldl FilterAvcGen.accumStep (some s0) = some s →
        List.Pairwise (fun a b => strLt a b = true) s ∧
        (∀ x, x ∈ s ↔ (x ∈ s0 ∨ (x ∈ lines ∧ FilterAvcGen.filterLine x = some true))) := by
  intro lines
  induction lines with
  | nil =>
    intro s0 hs0 s h
    cases h
    exact ⟨hs0, fun x => by simp⟩
  | cons l ls ih =>
    intro s0 hs0 s h
    rw [List.foldl_cons] at h
    cases hf : FilterAvcGen.filterLine l with
    | none =>
      rw [show FilterAvcGen.accumStep (some s0) l = none by
        simp [FilterAvcGen.accumStep, hf]] at h
      rw [foldl_accumStep_none] at h
      cases h
    | some b =>
      cases b with
      | true =>
        rw [show FilterAvcGen.accumStep (some s0) l = some (setInsert s0 l) by
          simp [FilterAvcGen.accumStep, hf]] at h
        obtain ⟨hsort, hmem⟩ := ih (setInsert s0 l) (setInsert_sorted hs0 l) s h
        refine ⟨hsort, fun x => ?_⟩
        rw [hmem x, setInsert_mem]
        by_cases hx : x = l
        · subst hx
          simp [hf, List.mem_cons]
        · simp [hx, List.mem_cons]
      | false =>
        rw [show FilterAvcGen.accumStep (some s0) l = some s0 by
          simp [FilterAvcGen.accumStep, hf]] at h
        obtain ⟨hsort, hmem⟩ := ih s0 hs0 s h
        refine ⟨hsort, fun x => ?_⟩
        rw [hmem x]
        by_cases hx : x = l
        · subst hx
          simp [hf, List.mem_cons]
        · simp [hx, List.mem_cons]

theorem get?_append_cons_length {α : Type} :
    ∀ (pre : List α) (b : α) (post : List α),
      (pre ++ b :: post).get? pre.length = some b := by
  intro pre
  induction pre with
  | nil => intro b post; rfl
  | cons p pre ih => intro b post; exact ih b post

theorem set_append_cons_length {α : Type} :
    ∀ (pre : List α) (b x : α) (post : List α),
      (pre ++ b :: post).set pre.length x = pre ++ x :: post := by
  intro pre
  induction pre with
  | nil => intro b x post; rfl
  | cons p pre ih =>
    intro b x post
    show p :: (pre ++ b :: post).set pre.length x = _
    rw [ih]
    rfl

theorem set_self {α : Type} :
    ∀ (l : List α) (i : Nat) (x : α), l.get? i = some x → l.set i x = l := by
  intro l
  induction l with
  | nil => intro i x h; cases h
  | cons a as ih =>
    intro i x h
    cases i with
    | zero => cases h; rfl
    | succ i =>
      show a :: as.set i x = a :: as
      rw [ih i x h]

theorem mergeInto_applies {a b : AvcContext} (ha : a.stale = false)
    (hb : b.stale = false) (hk : b.mergeKey = a.mergeKey) :
    AvcContext.mergeInto a b =
      ({ a with operation := setUnion a.operation b.operation }, markConsumed b) := by
  simp only [AvcContext.mergeKey, Prod.mk.injEq] at hk
  unfold AvcContext.mergeInto markConsumed
  rw [if_pos ⟨ha, hb, hk.1.symm, hk.2.1.symm, hk.2.2.1.symm, hk.2.2.2.symm⟩]

theorem mergeInto_stale_left {a b : AvcContext} (ha : a.stale = true) :
    AvcContext.mergeInto a b = (a, b) := by
  unfold AvcContext.mergeInto
  rw [if_neg]
  intro hc
  rw [ha] at hc
  cases hc.1

/-- All records of a merge state beyond index 0 are stale. -/
def tailStale (s : List AvcContext) : Prop :=
  ∀ (i : Nat) (r : AvcContext), 1 ≤ i → s.get? i = some r → r.stale = true

theorem mergeAt_noop_of_stale {s : List AvcContext} {i j : Nat}
    (hi : 1 ≤ i) (hts : tailStale s) : mergeAt s i j = s := by
  unfold mergeAt
  by_cases hij : i = j
  · rw [if_pos hij]
  · rw [if_neg hij]
    cases hgi : s.get? i with
    | none => rfl
    | some a =>
      cases hgj : s.get? j with
      | none => rfl
      | some b =>
        have ha : a.stale = true := hts i a hi hgi
        simp only [mergeInto_stale_left ha]
        rw [set_self s i a hgi, set_self s j b hgj]

theorem foldl_mergeAt_noop {ps : List (Nat × Nat)} {s : List AvcContext}
    (hp : ∀ p ∈ ps, 1 ≤ p.1) (hts : tailStale s) :
    ps.foldl (fun t p => mergeAt t p.1 p.2) s = s := by
  induction ps with
  | nil => rfl
  | cons q qs ih =>
    rw [List.foldl_cons, mergeAt_noop_of_stale (hp q (List.mem_cons_self q qs)) hts]
    exact ih (fun p hmem => hp p (List.mem_cons_of_mem q hmem))

theorem mergeRow0 :
    ∀ (post pre : List AvcContext) (a : AvcContext), a.stale = false →
      (∀ r ∈ post, r.stale = false ∧ r.mergeKey = a.mergeKey) →
      (List.range' (pre.length + 1) post.length).foldl
          (fun t j => mergeAt t 0 j) (a :: (pre ++ post)) =
        { a with operation :=
            post.foldl (fun acc r => setUnion acc r.operation) a.operation } ::
          (pre ++ post.map markConsumed) := by
  intro post
  induction post with
  | nil =>
    intro pre a ha hp
    show a :: (pre ++ []) = _
    rfl
  | cons b post2 ih =>
    intro pre a ha hp
    obtain ⟨hb, hbk⟩ := hp b (List.mem_cons_self b post2)
    rw [show (b :: post2).length = post2.length + 1 from rfl,
      List.range'_succ (pre.length + 1) post2.length 1, List.foldl_cons]
    have hstep : mergeAt (a :: (pre ++ b :: post2)) 0 (pre.length + 1) =
        { a with operation := setUnion a.operation b.operation } ::
          (pre ++ markConsumed b :: post2) := by
      unfold mergeAt
      rw [if_neg (by omega : ¬(0 : Nat) = pre.length + 1)]
      rw [show (a :: (pre ++ b :: post2)).get? 0 = some a from rfl]
      rw [show (a :: (pre ++ b :: post2)).get? (pre.length + 1) = some b from
        get?_append_cons_length pre b post2]
      show ((a :: (pre ++ b :: post2)).set 0 (a.mergeInto b).1).set (pre.length + 1)
          (a.mergeInto b).2 = _
      rw [mergeInto_applies ha hb hbk]
      show { a with operation := setUnion a.operation b.operation } ::
          (pre ++ b :: post2).set pre.length (markConsumed b) = _
      rw [set_append_cons_length]
    rw [hstep]
    have ih2 := ih (pre ++ [markConsumed b])
      { a with operation := setUnion a.operation b.operation } ha
      (fun r hr => by
        obtain ⟨hr1, hr2⟩ := hp r (List.mem_cons_of_mem b hr)
        exact ⟨hr1, hr2⟩)
    simp only [List.length_append, List.length_cons, List.length_nil,
      List.append_assoc, List.singleton_append, List.map_cons] at ih2 ⊢
    rw [show pre.length + (0 + 1) + 1 = pre.length + 1 + 1 from by omega] at ih2
    exact ih2

theorem tailStale_of_marked (A : AvcContext) (ts : List AvcContext) :
    tailStale (A :: ts.map markConsumed) := by
  intro i r hi hget
  cases i with
  | zero => cases hi
  | succ i =>
    rw [show (A :: ts.map markConsumed).get? (i + 1) = (ts.map markConsumed).get? i
      from rfl, List.get?_map] at hget
    cases hgt : ts.get? i with
    | none => rw [hgt] at hget; cases hget
    | some t =>
      rw [hgt] at hget
      cases hget
      rfl

/-- Under a shared merge key, the full pass leaves the head record holding
the accumulated operation set and marks every other record consumed. -/
theorem mergePass_sameKey (a : AvcContext) (ts : List AvcContext)
    (ha : a.stale = false)
    (hts : ∀ r ∈ ts, r.stale = false ∧ r.mergeKey = a.mergeKey) :
    mergePass (a :: ts) =
      { a with operation :=
          ts.foldl (fun acc r => setUnion acc r.operation) a.operation } ::
        ts.map markConsumed := by
  unfold mergePass pairList
  rw [show (a :: ts).length = ts.length + 1 from rfl, List.range_eq_range',
    List.range'_succ 0 ts.length 1]
  simp only [Nat.zero_add]
  rw [List.flatMap_cons, List.foldl_append]
  have hrow : ((0 :: List.range' 1 ts.length).map (fun j => ((0 : Nat), j))).foldl
      (fun s p => mergeAt s p.1 p.2) (a :: ts) =
      { a with operation :=
          ts.foldl (fun acc r => setUnion acc r.operation) a.operation } ::
        ts.map markConsumed := by
    rw [List.map_cons, List.foldl_cons]
    rw [show mergeAt (a :: ts) 0 0 = a :: ts from by unfold mergeAt; rw [if_pos rfl]]
    rw [List.foldl_map]
    have h0 := mergeRow0 ts [] a ha hts
    simp only [List.length_nil, List.nil_append, Nat.zero_add] at h0
    exact h0
  rw [hrow]
  apply foldl_mergeAt_noop
  · intro p hp
    rw [List.mem_flatMap] at hp
    obtain ⟨i, hi, hpi⟩ := hp
    rw [List.mem_map] at hpi
    obtain ⟨j, _, rfl⟩ := hpi
    have := (List.mem_range'_1.mp hi).1
    omega
  · exact tailStale_of_marked _ ts

theorem foldl_setUnion_mem (l : List AvcContext) (init : List String) (x : String) :
    x ∈ l.foldl (fun acc r => setUnion acc r.operation) init ↔
      x ∈ init ∨ ∃ r ∈ l, x ∈ r.operation := by
  induction l generalizing init with
  | nil => simp
  | cons b bs ih =>
    rw [List.foldl_cons, ih, setUnion_mem]
    constructor
    · rintro ((hx | hx) | ⟨r, hr, hx⟩)
      · exact Or.inl hx
      · exact Or.inr ⟨b, List.mem_cons_self b bs, hx⟩
      · exact Or.inr ⟨r, List.mem_cons_of_mem b hr, hx⟩
    · rintro (hx | ⟨r, hr, hx⟩)
      · exact Or.inl (Or.inl hx)
      · rcases List.mem_cons.mp hr with rfl | hr
        · exact Or.inl (Or.inr hx)
        · exact Or.inr ⟨r, hr, hx⟩

theorem foldl_setUnion_sorted (l : List AvcContext) {init : List String}
    (h : List.Pairwise (fun a b => strLt a b = true) init) :
    List.Pairwise (fun a b => strLt a b = true)
      (l.foldl (fun acc r => setUnion acc r.operation) init) := by
  induction l generalizing init with
  | nil => exact h
  | cons b bs ih => exact ih (setUnion_sorted h _)

theorem format_single_survivor (A : AvcContext) (ts : List AvcContext)
    (hA : A.stale = false) :
    avcContextsFormat (A :: ts.map markConsumed) =
      if A.operation.length = 0 then "" else A.renderFmt := by
  unfold avcContextsFormat
  rw [List.filter_cons]
  have hdrop : (ts.map markConsumed).filter
      (fun r => !(r.stale || r.operation.length == 0)) = [] := by
    rw [List.filter_eq_nil_iff]
    intro r hr
    obtain ⟨t, _, rfl⟩ := List.mem_map.mp hr
    simp [markConsumed]
  rw [hdrop]
  by_cases hlen : A.operation.length = 0
  · simp [hA, hlen, joinSep]
  · simp [hA, hlen, joinSep]

/-- C2: for N >= 2 valid, non-consumed records sharing one merge key
(granted, source, target, class) with pairwise disjoint operation sets,
the full nested merge pass leaves exactly one non-consumed record, its
operation set is the union of all the input operation sets, and the
rendered output of the write path is the same for every permutation of
the input collection.  (Operation sets are `std::set`s, i.e. strictly
sorted lists.) -/
theorem merge_same_key_commutative :
    ∀ (rs rs2 : List AvcContext) (k : Bool × SEContext × SEContext × String),
      2 ≤ rs.length →
      (∀ r ∈ rs, r.stale = false) →
      (∀ r ∈ rs, r.mergeKey = k) →
      (∀ r ∈ rs, List.Pairwise (fun a b => strLt a b = true) r.operation) →
      rs.Pairwise (fun r1 r2 => ∀ x ∈ r1.operation, x ∉ r2.operation) →
      rs.Perm rs2 →
      ((mergePass rs).filter (fun r => !r.stale)).length = 1 ∧
      (∀ s ∈ mergePass rs, s.stale = false → s.operation = opsUnion rs) ∧
      avcContextsFormat (mergePass rs) = avcContextsFormat (mergePass rs2) := by
  intro rs rs2 k hlen hstale hkey hsorted hdisj hperm
  cases rs with
  | nil => exact absurd hlen (by simp)
  | cons a ts =>
  cases rs2 with
  | nil =>
    have := hperm.length_eq
    simp at this
  | cons a2 ts2 =>
  have hstale2 : ∀ r ∈ a2 :: ts2, r.stale = false :=
    fun r hr => hstale r (hperm.mem_iff.mpr hr)
  have hkey2 : ∀ r ∈ a2 :: ts2, r.mergeKey = k :=
    fun r hr => hkey r (hperm.mem_iff.mpr hr)
  have ha : a.stale = false := hstale a (List.mem_cons_self a ts)
  have ha2 : a2.stale = false := hstale2 a2 (List.mem_cons_self a2 ts2)
  have h1 := mergePass_sameKey a ts ha (fun r hr =>
    ⟨hstale r (List.mem_cons_of_mem a hr),
     (hkey r (List.mem_cons_of_mem a hr)).trans (hkey a (List.mem_cons_self a ts)).symm⟩)
  have h2 := mergePass_sameKey a2 ts2 ha2 (fun r hr =>
    ⟨hstale2 r (List.mem_cons_of_mem a2 hr),
     (hkey2 r (List.mem_cons_of_mem a2 hr)).trans
       (hkey2 a2 (List.mem_cons_self a2 ts2)).symm⟩)
  have hdropStale : ∀ (ts' : List AvcContext),
      (ts'.map markConsumed).filter (fun r => !r.stale) = [] := by
    intro ts'
    rw [List.filter_eq_nil_iff]
    intro r hr
    obtain ⟨t, _, rfl⟩ := List.mem_map.mp hr
    simp [markConsumed]
  -- membership characterization of the survivor's operation set
  have hmemA : ∀ x, (x ∈ ts.foldl (fun acc r => setUnion acc r.operation) a.operation ↔
      ∃ r ∈ a :: ts, x ∈ r.operation) := by
    intro x
    rw [foldl_setUnion_mem]
    constructor
    · rintro (hx | ⟨r, hr, hx⟩)
      · exact ⟨a, List.mem_cons_self a ts, hx⟩
      · exact ⟨r, List.mem_cons_of_mem a hr, hx⟩
    · rintro ⟨r, hr, hx⟩
      rcases List.mem_cons.mp hr with rfl | hr
      · exact Or.inl hx
      · exact Or.inr ⟨r, hr, hx⟩
  have hsortA : List.Pairwise (fun x y => strLt x y = true)
      (ts.foldl (fun acc r => setUnion acc r.operation) a.operation) :=
    foldl_setUnion_sorted ts (hsorted a (List.mem_cons_self a ts))
  refine ⟨?_, ?_, ?_⟩
  · rw [h1, List.filter_cons]
    have hc : (! (({ a with operation :=
        (ts.foldl (fun acc r => setUnion acc r.operation) a.operation) } : AvcContext).stale)) = true := by
      rw [show ({ a with operation :=
        (ts.foldl (fun acc r => setUnion acc r.operation) a.operation) } : AvcContext).stale =
          a.stale from rfl, ha]
      rfl
    rw [if_pos hc, hdropStale ts]
    rfl
  · intro s hs hss
    rw [h1] at hs
    rcases List.mem_cons.mp hs with rfl | hs
    · show ts.foldl (fun acc r => setUnion acc r.operation) a.operation = opsUnion (a :: ts)
      apply sorted_mem_ext hsortA
      · exact foldl_setUnion_sorted ts (setUnion_sorted List.Pairwise.nil a.operation)
      · intro x
        rw [hmemA x]
        show _ ↔ x ∈ (a :: ts).foldl (fun acc r => setUnion acc r.operation) []
        rw [foldl_setUnion_mem]
        simp
    · exfalso
      obtain ⟨t, _, rfl⟩ := List.mem_map.mp hs
      rw [show (markConsumed t).stale = true from rfl] at hss
      cases hss
  · rw [h1, h2,
      format_single_survivor ({ a with operation :=
        (ts.foldl (fun acc r => setUnion acc r.operation) a.operation) }) ts ha,
      format_single_survivor ({ a2 with operation :=
        (ts2.foldl (fun acc r => setUnion acc r.operation) a2.operation) }) ts2 ha2]
    have hU : ts.foldl (fun acc r => setUnion acc r.operation) a.operation =
        ts2.foldl (fun acc r => setUnion acc r.operation) a2.operation := by
      apply sorted_mem_ext hsortA
      · exact foldl_setUnion_sorted ts2 (hsorted a2 (hperm.mem_iff.mpr (List.mem_cons_self a2 ts2)))
      · intro x
        rw [hmemA x]
        have hmemA2 : x ∈ ts2.foldl (fun acc r => setUnion acc r.operation) a2.operation ↔
            ∃ r ∈ a2 :: ts2, x ∈ r.operation := by
          rw [foldl_setUnion_mem]
          constructor
          · rintro (hx | ⟨r, hr, hx⟩)
            · exact ⟨a2, List.mem_cons_self a2 ts2, hx⟩
            · exact ⟨r, List.mem_cons_of_mem a2 hr, hx⟩
          · rintro ⟨r, hr, hx⟩
            rcases List.mem_cons.mp hr with rfl | hr
            · exact Or.inl hx
            · exact Or.inr ⟨r, hr, hx⟩
        rw [hmemA2]
        constructor
        · rintro ⟨r, hr, hx⟩
          exact ⟨r, hperm.mem_iff.mp hr, hx⟩
        · rintro ⟨r, hr, hx⟩
          exact ⟨r, hperm.mem_iff.mpr hr, hx⟩
    have hk12 : a.mergeKey = a2.mergeKey := by
      rw [hkey a (List.mem_cons_self a ts), hkey2 a2 (List.mem_cons_self a2 ts2)]
    simp only [AvcContext.mergeKey, Prod.mk.injEq] at hk12
    have hrf : ({ a with operation :=
          (ts.foldl (fun acc r => setUnion acc r.operation) a.operation) } : AvcContext).renderFmt =
        ({ a2 with operation :=
          (ts2.foldl (fun acc r => setUnion acc r.operation) a2.operation) } : AvcContext).renderFmt := by
      show renderParts a.scontext a.tcontext a.tclass
          (ts.foldl (fun acc r => setUnion acc r.operation) a.operation) =
        renderParts a2.scontext a2.tcontext a2.tclass
          (ts2.foldl (fun acc r => setUnion acc r.operation) a2.operation)
      rw [hU, hk12.2.1, hk12.2.2.1, hk12.2.2.2]
    show (if (ts.foldl (fun acc r => setUnion acc r.operation) a.operation).length = 0
        then "" else _) = _
    rw [hrf, hU]

/-- C2 witness: two concrete records with the same key and disjoint
operation sets, in both orders. -/
theorem merge_same_key_commutative_witness :
    ((mergePass
        [⟨false, ["read"], ⟨"a"⟩, ⟨"b"⟩, "file", [], false, false⟩,
         ⟨false, ["write"], ⟨"a"⟩, ⟨"b"⟩, "file", [], false, false⟩]).filter
      (fun r => !r.stale)).length = 1 :=
  (merge_same_key_commutative
    [⟨false, ["read"], ⟨"a"⟩, ⟨"b"⟩, "file", [], false, false⟩,
     ⟨false, ["write"], ⟨"a"⟩, ⟨"b"⟩, "file", [], false, false⟩]
    [⟨false, ["write"], ⟨"a"⟩, ⟨"b"⟩, "file", [], false, false⟩,
     ⟨false, ["read"], ⟨"a"⟩, ⟨"b"⟩, "file", [], false, false⟩]
    (false, ⟨"a"⟩, ⟨"b"⟩, "file")
    (by decide) (by decide) (by decide) (by decide) (by decide)
    (List.Perm.swap _ _ _)).1

/-- C10: the security-context normalizer is idempotent — normalizing the
result of `SEContext.ofString` again returns it unchanged, because a
normalized type token consists of word characters and hyphens only and
so can never match the context pattern (which requires a `u:` prefix). -/
theorem seContext_normalize_idempotent (s : String) :
    SEContext.ofString ((SEContext.ofString s).m_context) = SEContext.ofString s := by
  unfold SEContext.ofString
  cases h : seMatchType s.data with
  | none => simp [h]
  | some t =>
    have h2 : seMatchType (t.asString).data = none :=
      seMatchType_wordDash_none (seMatchType_mem_wordDash h)
    simp [h, h2]

/-- C3: the property-denial filter never reports a match: on a successful
regex search `smatch::size()` is `mark_count() + 1 = 4`, so neither the
`== 3` (destination variant) nor the `== 1` (bare property) branch can
run, and the filter returns `false` with the seen-set unchanged — for
every line, including first occurrences and destination-value variants.
This refutes the claimed first-occurrence/destination behavior. -/
theorem filterLibc_always_false (m : PropLineMatch) (props : List String) :
    FilterLibc.filterStep m props = (false, props) := by
  unfold FilterLibc.filterStep smatchSize
  cases hm : m.matched <;> simp [hm]

/-- C1: constructing an `AuditRecord` from a line lacking `avc:` does not
return an invalid record — `string_view::substr(string_view::npos)`
throws `std::out_of_range`, so `FilterAvcGen::filter` (which runs the
constructor on every arriving line) crashes instead of returning
`false`. -/
theorem filterAvcGen_crash_without_avc :
    avcContextParse "hello world" = ParseOutcome.crash ∧
      FilterAvcGen.filterLine "hello world" = none := by
  exact ⟨rfl, rfl⟩

/-- C6: a line containing `avc:`, a valid `denied` token and an opening
`\x7b` but no closing `\x7d` does not yield an invalid record — the
`do/while` loop advances the token iterator past the end of the vector
(undefined behaviour), modelled as a crash. -/
theorem avcParse_crash_unterminated_brace :
    avcContextParse "avc: denied \x7b read" = ParseOutcome.crash := by
  exact rfl

/-- C4: a surviving valid record whose operation set contains `sys_admin`
is NOT suppressed by the record-generator write path: `FilterAvcGen::write`
renders through `fmt::formatter<AvcContexts>`, which has no `sys_admin`
hook (the hook lives only in the unused `operator<<`), so the rule is
emitted. -/
theorem writeRender_emits_sys_admin :
    FilterAvcGen.writeRender
        ["avc: denied \x7b sys_admin \x7d for pid=1 scontext=u:r:init:s0 tcontext=u:r:init:s0 tclass=capability permissive=0"] =
      some "allow init init:capability sys_admin;\n" := by
  exact rfl

/-- C5: the record-generator write path does not deduplicate rendered
rules — two valid records that are not mergeable (they differ in
`granted`) but render to the same text produce two identical output
lines, because `FilterAvcGen::write` formats via
`fmt::formatter<AvcContexts>` (collection order, no string set) rather
than the set-based sorted `operator<<`. -/
theorem writeRender_no_dedup :
    FilterAvcGen.writeRender
        ["avc: denied \x7b read \x7d for scontext=u:r:a:s0 tcontext=u:r:b:s0 tclass=file permissive=0",
         "avc: granted \x7b read \x7d for scontext=u:r:a:s0 tcontext=u:r:b:s0 tclass=file permissive=0"] =
      some "allow a b:file read;\nallow a b:file read;\n" := by
  exact rfl

/-- C7 counterexample: a `permissive` value consisting of a valid integer
followed by trailing garbage (`0abc`) does NOT invalidate the record —
stream extraction reads the leading `0` and ignores the rest, so the
record parses as valid and its rule is rendered. -/
theorem permissive_trailing_garbage_accepted :
    avcParseStale
        "avc: denied \x7b read \x7d for scontext=u:r:a:s0 tcontext=u:r:b:s0 tclass=file permissive=0abc" =
      some false ∧
    FilterAvcGen.writeRender
        ["avc: denied \x7b read \x7d for scontext=u:r:a:s0 tcontext=u:r:b:s0 tclass=file permissive=0abc"] =
      some "allow a b:file read;\n" := by
  exact ⟨rfl, rfl⟩

/-- C7 (amended): a parsed record is valid only if integer stream
extraction from its `permissive` value succeeds with result 0 or 1, and a
failed check (non-numeric text, or an integer other than 0/1) always
leaves the record invalid; but characters trailing the extracted integer
are ignored rather than invalidating the record. -/
theorem permissive_validation_spec :
    (∀ (line : String) (r : AvcContext), avcContextParse line = .ok r →
        r.stale = false →
        ∃ v x, avcPermValue line = some v ∧ streamExtractInt v = some x ∧
          (x = 0 ∨ x = 1)) ∧
    (∀ (line : String) (r : AvcContext) (v : String), avcContextParse line = .ok r →
        avcPermValue line = some v → permissiveCheck v = none → r.stale = true) := by
  constructor
  · intro line r h hs
    unfold avcContextParse at h
    cases hc : avcParseCore line with
    | crash => rw [hc] at h; cases h
    | early c =>
      rw [hc] at h; cases h
      have he := (avcParseCore_early hc).2
      rw [he] at hs; cases hs
    | attrs g ops m0 =>
      rw [hc] at h; cases h
      obtain ⟨v, b, hv, hb⟩ := finishParse_stale_false hs
      obtain ⟨x, hx, hx01⟩ := permissiveCheck_eq_some hb
      refine ⟨v, x, ?_, hx, hx01⟩
      simpa [avcPermValue, hc] using hv
  · intro line r v h hv hcheck
    unfold avcContextParse at h
    cases hc : avcParseCore line with
    | crash => rw [hc] at h; cases h
    | early c =>
      rw [hc] at h; cases h
      exact (avcParseCore_early hc).2
    | attrs g ops m0 =>
      rw [hc] at h; cases h
      simp only [avcPermValue, hc] at hv
      exact finishParse_permFail hv hcheck

/-- C7 witness: the amended theorem applied to the trailing-garbage line,
whose parsed record is valid with `permissive` raw value `0abc`. -/
theorem permissive_validation_spec_witness :
    ∃ v x,
      avcPermValue
          "avc: denied \x7b read \x7d for scontext=u:r:a:s0 tcontext=u:r:b:s0 tclass=file permissive=0abc" =
        some v ∧
      streamExtractInt v = some x ∧ (x = 0 ∨ x = 1) :=
  permissive_validation_spec.1
    "avc: denied \x7b read \x7d for scontext=u:r:a:s0 tcontext=u:r:b:s0 tclass=file permissive=0abc"
    ⟨false, ["read"], ⟨"a"⟩, ⟨"b"⟩, "file", [], false, false⟩ rfl rfl

/-- C9 counterexample: after parsing a line whose `permissive` value is
unparsable (`maybe`), parsing completes with an invalid record whose
`miscAttributes` still contains the key `permissive` — it is erased only
on the fully valid path. -/
theorem misc_keeps_permissive_on_bad_value :
    avcParseMisc
        "avc: denied \x7b read \x7d for scontext=u:r:a:s0 tcontext=u:r:b:s0 tclass=file permissive=maybe" =
      some [("permissive", "maybe")] := by
  exact rfl

/-- C9 (amended): once parsing completes, `miscAttributes` never contains
`scontext`, `tcontext` or `tclass`; it does not contain `permissive`
either whenever the record is valid, but an invalid record can retain the
`permissive` key. -/
theorem misc_reserved_keys :
    ∀ (line : String) (r : AvcContext), avcContextParse line = .ok r →
      (List.lookup "scontext" r.misc_attributes = none ∧
       List.lookup "tcontext" r.misc_attributes = none ∧
       List.lookup "tclass" r.misc_attributes = none) ∧
      (r.stale = false → List.lookup "permissive" r.misc_attributes = none) := by
  intro line r h
  unfold avcContextParse at h
  cases hc : avcParseCore line with
  | crash => rw [hc] at h; cases h
  | early c =>
    rw [hc] at h; cases h
    obtain ⟨hm, hs⟩ := avcParseCore_early hc
    rw [hm, hs]
    exact ⟨⟨rfl, rfl, rfl⟩, fun hf => by cases hf⟩
  | attrs g ops m0 =>
    rw [hc] at h; cases h
    exact finishParse_misc_clean g ops m0

/-- C9 witness: the amended theorem applied to a valid record whose misc
attributes are `[(pid, 1)]`. -/
theorem misc_reserved_keys_witness :
    (List.lookup "scontext" ([("pid", "1")] : AttrMap) = none ∧
     List.lookup "tcontext" ([("pid", "1")] : AttrMap) = none ∧
     List.lookup "tclass" ([("pid", "1")] : AttrMap) = none) ∧
    ((false : Bool) = false → List.lookup "permissive" ([("pid", "1")] : AttrMap) = none) :=
  misc_reserved_keys
    "avc: denied \x7b sys_admin \x7d for pid=1 scontext=u:r:init:s0 tcontext=u:r:init:s0 tclass=capability permissive=0"
    ⟨false, ["sys_admin"], ⟨"init"⟩, ⟨"init"⟩, "capability", [("pid", "1")], false, false⟩ rfl

/-- C8 counterexample: the record-generator filter accumulates into the
same `std::set<std::string>` as every other filter — processing the
matching lines W, R, W (with R before W lexicographically) leaves the
deduplicated sorted collection [R, W], not the arrival-order sequence
[W, R, W] the claim asserts. -/
theorem accumulate_not_arrival_order :
    FilterAvcGen.accumulate
        ["avc: denied \x7b write \x7d for scontext=u:r:a:s0 tcontext=u:r:b:s0 tclass=file permissive=0",
         "avc: denied \x7b read \x7d for scontext=u:r:a:s0 tcontext=u:r:b:s0 tclass=file permissive=0",
         "avc: denied \x7b write \x7d for scontext=u:r:a:s0 tcontext=u:r:b:s0 tclass=file permissive=0"] =
      some
        ["avc: denied \x7b read \x7d for scontext=u:r:a:s0 tcontext=u:r:b:s0 tclass=file permissive=0",
         "avc: denied \x7b write \x7d for scontext=u:r:a:s0 tcontext=u:r:b:s0 tclass=file permissive=0"] ∧
    specArrivalOrderMatches
        ["avc: denied \x7b write \x7d for scontext=u:r:a:s0 tcontext=u:r:b:s0 tclass=file permissive=0",
         "avc: denied \x7b read \x7d for scontext=u:r:a:s0 tcontext=u:r:b:s0 tclass=file permissive=0",
         "avc: denied \x7b write \x7d for scontext=u:r:a:s0 tcontext=u:r:b:s0 tclass=file permissive=0"] =
      ["avc: denied \x7b write \x7d for scontext=u:r:a:s0 tcontext=u:r:b:s0 tclass=file permissive=0",
       "avc: denied \x7b read \x7d for scontext=u:r:a:s0 tcontext=u:r:b:s0 tclass=file permissive=0",
       "avc: denied \x7b write \x7d for scontext=u:r:a:s0 tcontext=u:r:b:s0 tclass=file permissive=0"] ∧
    (["avc: denied \x7b read \x7d for scontext=u:r:a:s0 tcontext=u:r:b:s0 tclass=file permissive=0",
      "avc: denied \x7b write \x7d for scontext=u:r:a:s0 tcontext=u:r:b:s0 tclass=file permissive=0"] :
        List String) ≠
      ["avc: denied \x7b write \x7d for scontext=u:r:a:s0 tcontext=u:r:b:s0 tclass=file permissive=0",
       "avc: denied \x7b read \x7d for scontext=u:r:a:s0 tcontext=u:r:b:s0 tclass=file permissive=0",
       "avc: denied \x7b write \x7d for scontext=u:r:a:s0 tcontext=u:r:b:s0 tclass=file permissive=0"] := by
  exact ⟨rfl, rfl, by decide⟩

/-- C8 (amended): like the other filters, the record-generator filter's
accumulated collection is a `std::set` of lines — its members are exactly
the matching lines, deduplicated by exact text and iterated in sorted
order rather than arrival order. -/
theorem accumulate_sorted_dedup :
    ∀ (lines s : List String), FilterAvcGen.accumulate lines = some s →
      List.Pairwise (fun a b => strLt a b = true) s ∧
      (∀ x, x ∈ s ↔ (x ∈ lines ∧ FilterAvcGen.filterLine x = some true)) := by
  intro lines s h
  obtain ⟨h1, h2⟩ := accumulate_invariant lines [] (by simp) s h
  exact ⟨h1, fun x => by simpa using h2 x⟩

/-- C8 witness: the amended theorem applied to a one-line capture. -/
theorem accumulate_sorted_dedup_witness :
    List.Pairwise (fun a b => strLt a b = true)
      (["avc: denied \x7b read \x7d for scontext=u:r:a:s0 tcontext=u:r:b:s0 tclass=file permissive=0"] :
        List String) :=
  (accumulate_sorted_dedup
      ["avc: denied \x7b read \x7d for scontext=u:r:a:s0 tcontext=u:r:b:s0 tclass=file permissive=0"]
      ["avc: denied \x7b read \x7d for scontext=u:r:a:s0 tcontext=u:r:b:s0 tclass=file permissive=0"]
      rfl).1

end Bootlogger
